import Mathlib

/-!
Verification development for the SMDB pack builder (build_pack.py).

The program loads an SMDB manifest into a hash-to-filename index (`load_smdb`),
then walks each source root (directories via `glob`, files via libarchive,
recursing into nested archives), hashes every leaf blob with SHA-256 and
copies blobs whose hash occurs in the index to the manifest-specified path
under the destination, skipping paths that already exist.

Byte strings are modelled as `List Nat` (one Nat per byte), text as
`List Char`.  The libarchive adapter is modelled as an abstract decode
function `Decode`: `d buf = some entries` means the bytes decode as an
archive with the given entry contents, `none` means libarchive raises an
error that the program catches and treats as "not an archive".  Recursion
into nested archives is bounded by an explicit `fuel` parameter (the source
recurses without bound; every theorem below either holds for all fuel or
assumes fuel at least the nesting depth of its input).
-/

abbrev Bytes := List Nat

abbrev Str := List Char

/-! ## SHA-256 (model of hashlib.sha256)

A byte-level executable implementation of FIPS 180-4 SHA-256, used as the
semantics of the external `hashlib.sha256` objects: the state of a hash
object is the list of all bytes fed to `update` so far, and `digest`
applies `sha256Bytes` to that accumulated message. -/

def chunkAux (n : Nat) (acc : Bytes) : Bytes → List Bytes
  | [] => if acc = [] then [] else [acc.reverse]
  | b :: rest =>
    let acc2 := b :: acc
    if acc2.length = n then acc2.reverse :: chunkAux n [] rest else chunkAux n acc2 rest

def listJoin (ls : List Bytes) : Bytes := ls.foldr (fun a b => a ++ b) []

def M32 : Nat := 4294967296

def rotr (n x : Nat) : Nat := ((x >>> n) ||| (x <<< (32 - n))) % M32

def shaCh (x y z : Nat) : Nat := (x &&& y) ^^^ ((x ^^^ 4294967295) &&& z)

def shaMaj (x y z : Nat) : Nat := (x &&& y) ^^^ (x &&& z) ^^^ (y &&& z)

def bigSig0 (x : Nat) : Nat := rotr 2 x ^^^ rotr 13 x ^^^ rotr 22 x

def bigSig1 (x : Nat) : Nat := rotr 6 x ^^^ rotr 11 x ^^^ rotr 25 x

def smallSig0 (x : Nat) : Nat := rotr 7 x ^^^ rotr 18 x ^^^ (x >>> 3)

def smallSig1 (x : Nat) : Nat := rotr 17 x ^^^ rotr 19 x ^^^ (x >>> 10)

def shaK : List Nat := [
  1116352408, 1899447441, 3049323471, 3921009573, 961987163, 1508970993,
  2453635748, 2870763221, 3624381080, 310598401, 607225278, 1426881987,
  1925078388, 2162078206, 2614888103, 3248222580, 3835390401, 4022224774,
  264347078, 604807628, 770255983, 1249150122, 1555081692, 1996064986,
  2554220882, 2821834349, 2952996808, 3210313671, 3336571891, 3584528711,
  113926993, 338241895, 666307205, 773529912, 1294757372, 1396182291,
  1695183700, 1986661051, 2177026350, 2456956037, 2730485921, 2820302411,
  3259730800, 3345764771, 3516065817, 3600352804, 4094571909, 275423344,
  430227734, 506948616, 659060556, 883997877, 958139571, 1322822218,
  1537002063, 1747873779, 1955562222, 2024104815, 2227730452, 2361852424,
  2428436474, 2756734187, 3204031479, 3329325298]

def shaH0 : List Nat := [
  1779033703, 3144134277, 1013904242, 2773480762,
  1359893119, 2600822924, 528734635, 1541459225]

def beBytes : Nat → Nat → Bytes
  | 0, _ => []
  | n+1, v => beBytes n (v / 256) ++ [v % 256]

def shaPad (msg : Bytes) : Bytes :=
  let L := msg.length
  let k := (64 - ((L + 9) % 64)) % 64
  msg ++ 128 :: List.replicate k 0 ++ beBytes 8 (8 * L)

def toWords : Bytes → List Nat
  | b1 :: b2 :: b3 :: b4 :: rest => (((b1 * 256 + b2) * 256 + b3) * 256 + b4) :: toWords rest
  | _ => []

def nextW (ws : List Nat) : Nat :=
  let L := ws.length
  (smallSig1 (ws.getD (L - 2) 0) + ws.getD (L - 7) 0 +
    smallSig0 (ws.getD (L - 15) 0) + ws.getD (L - 16) 0) % M32

def extendW : Nat → List Nat → List Nat
  | 0, ws => ws
  | n+1, ws => extendW n (ws ++ [nextW ws])

def shaRound (s : List Nat) (kw : Nat × Nat) : List Nat :=
  match s with
  | [a, b, c, d, e, f, g, hh] =>
    let t1 := (hh + bigSig1 e + shaCh e f g + kw.1 + kw.2) % M32
    let t2 := (bigSig0 a + shaMaj a b c) % M32
    [(t1 + t2) % M32, a, b, c, (d + t1) % M32, e, f, g]
  | _ => s

def shaCompress (h : List Nat) (block : Bytes) : List Nat :=
  let w := extendW 48 (toWords block)
  let s := (shaK.zip w).foldl shaRound h
  (h.zip s).map (fun p => (p.1 + p.2) % M32)

/-- SHA-256 digest (32 bytes) of a byte string. -/
def sha256Bytes (msg : Bytes) : Bytes :=
  let hFinal := (chunkAux 64 [] (shaPad msg)).foldl shaCompress shaH0
  hFinal.foldr (fun w acc => beBytes 4 w ++ acc) []

/-- Model of `h.update(chunk)`: the object state is the message accumulated so far. -/
def shaUpdate (state chunk : Bytes) : Bytes := state ++ chunk

/-- Model of `h.digest()` on an accumulated message. -/
def shaDigest (state : Bytes) : Bytes := sha256Bytes state

/-- Model of the `iter(lambda: f.read(4096), b'')` loop: the successive
4096-byte chunks of the file content. -/
def pyReadChunks (content : Bytes) : List Bytes := chunkAux 4096 [] content

/-- `hash_file` of build_pack.py: feed the file content to a sha256 object in
4096-byte chunks and take the digest.  The file is identified with its
content bytes. -/
def hash_file (content : Bytes) : Bytes :=
  shaDigest ((pyReadChunks content).foldl shaUpdate [])

/-- `hash_mem` of build_pack.py: one `update` with the whole buffer. -/
def hash_mem (buf : Bytes) : Bytes := shaDigest (shaUpdate [] buf)

/-! ## Manifest loading (`load_smdb`)

An SMDB line is `sha256 TAB filename TAB sha1 TAB md5 TAB crc`.  The source
sorts the raw lines by `l[65:]` descending (stable, Python `list.sort` with
`reverse=True`), then for each line strips it, splits on TAB with maxsplit 4,
unpacks exactly five fields (a `ValueError` otherwise), checks the first
field has length 64, converts it from hex (`bytearray.fromhex`, which skips
single spaces between byte pairs and raises `ValueError` otherwise), and
assigns `DB[hash] = filename`, the later assignment overwriting. -/

def pyIsSpace (c : Char) : Bool :=
  c = ' ' || c = '\t' || c = '\n' || c = '\r' || c = '\x0b' || c = '\x0c'

/-- Python `str.strip()`. -/
def pyStrip (s : Str) : Str :=
  ((s.dropWhile pyIsSpace).reverse.dropWhile pyIsSpace).reverse

def splitFirstTab : Str → Option (Str × Str)
  | [] => none
  | c :: t =>
    if c = '\t' then some ([], t)
    else
      match splitFirstTab t with
      | none => none
      | some (b, a) => some (c :: b, a)

/-- Python `s.split('\t', maxsplit)`. -/
def pySplitTab : Nat → Str → List Str
  | 0, s => [s]
  | n+1, s =>
    match splitFirstTab s with
    | none => [s]
    | some (b, a) => b :: pySplitTab n a

def hexVal (c : Char) : Option Nat :=
  let n := c.toNat
  if 48 ≤ n ∧ n ≤ 57 then some (n - 48)
  else if 97 ≤ n ∧ n ≤ 102 then some (n - 87)
  else if 65 ≤ n ∧ n ≤ 70 then some (n - 55)
  else none

/-- Python `bytearray.fromhex`: pairs of hex digits, spaces allowed between pairs. -/
def pyFromHex : Str → Option Bytes
  | [] => some []
  | ' ' :: rest => pyFromHex rest
  | c1 :: c2 :: rest =>
    match hexVal c1, hexVal c2 with
    | some a, some b => (pyFromHex rest).map (fun t => (16 * a + b) :: t)
    | _, _ => none
  | [_] => none

/-- One loop iteration of `load_smdb`: strip, split on TAB (maxsplit 4),
unpack five fields, check the hash field length is 64, convert from hex.
`Except.error ()` models the `ValueError` raised on each failure. -/
def parseLine (line : Str) : Except Unit (Bytes × Str) :=
  match pySplitTab 4 (pyStrip line) with
  | [sha, filename, _f3, _f4, _f5] =>
    if sha.length = 64 then
      match pyFromHex sha with
      | some h => .ok (h, filename)
      | none => .error ()
    else .error ()
  | _ => .error ()

/-- Lexicographic byte-wise order on text, as Python compares strings. -/
def pyLexLe : Str → Str → Bool
  | [], _ => true
  | _ :: _, [] => false
  | a :: as, b :: bs =>
    if a.toNat < b.toNat then true
    else if b.toNat < a.toNat then false
    else pyLexLe as bs

/-- Comparison used by `lines.sort(key=lambda l: l[65:], reverse=True)`:
descending by the tail of the line from character index 65. -/
def lineLe (a b : Str) : Bool := pyLexLe (b.drop 65) (a.drop 65)

def insSorted (le : Str → Str → Bool) (x : Str) : List Str → List Str
  | [] => [x]
  | y :: ys => if le x y then x :: y :: ys else y :: insSorted le x ys

/-- Stable sort (insertion sort).  Python `list.sort` is stable; a stable
sort under a fixed total preorder has a unique result, so this computes the
same list as the source's sort call. -/
def insertionSort (le : Str → Str → Bool) : List Str → List Str
  | [] => []
  | x :: xs => insSorted le x (insertionSort le xs)

def sortLines (lines : List Str) : List Str := insertionSort lineLe lines

/-- The manifest index: association list from 32-byte digest to filename,
with unique keys (a model of the Python dict `DB`). -/
abbrev Db := List (Bytes × Str)

/-- Python dict assignment `DB[k] = v`: overwrite in place or append. -/
def dbInsert : Db → Bytes → Str → Db
  | [], k, v => [(k, v)]
  | (k0, v0) :: t, k, v =>
    if k0 = k then (k, v) :: t else (k0, v0) :: dbInsert t k v

def lookupDb : Db → Bytes → Option Str
  | [], _ => none
  | (k, v) :: t, h => if k = h then some v else lookupDb t h

def dbKeys (db : Db) : List Bytes := db.map (fun e => e.1)

def loadAux : List Str → Db → Except Unit Db
  | [], db => .ok db
  | l :: rest, db =>
    match parseLine l with
    | .ok (h, name) => loadAux rest (dbInsert db h name)
    | .error _ => .error ()

/-- `load_smdb` of build_pack.py: sort the raw lines by tail-from-index-65
descending, then fold the parsed records into the dict, later records
overwriting earlier ones.  Any malformed line raises (`Except.error`). -/
def load_smdb (lines : List Str) : Except Unit Db := loadAux (sortLines lines) []

/-! ## Resolver state and traversal -/

/-- Mutable run state: the global `FOUND` set (as a duplicate-free list in
insertion order, modelling a Python set with deterministic size) and the
destination tree (association list from output path to file content). -/
@[ext] structure St where
  found : List Bytes
  fs : List (Str × Bytes)
deriving DecidableEq

/-- Python `FOUND.add(h)`. -/
def addFound (h : Bytes) (found : List Bytes) : List Bytes :=
  if h ∈ found then found else found ++ [h]

def fsLookup : List (Str × Bytes) → Str → Option Bytes
  | [], _ => none
  | (q, c) :: rest, p => if q = p then some c else fsLookup rest p

/-- `os.path.join(destination, name)` for a relative manifest name. -/
def pathJoin (dest name : Str) : Str := dest ++ '/' :: name

/-- `write_file` of build_pack.py: return unless the hash is a key of the
index; record the hash in `FOUND`; if the target path already exists, return
without writing; otherwise write the blob bytes at the target path.
Directory creation has no observable effect in this model. -/
def write_file (db : Db) (dest : Str) (source h : Bytes) (st : St) : St :=
  match lookupDb db h with
  | none => st
  | some name =>
    let st1 : St := ⟨addFound h st.found, st.fs⟩
    if (fsLookup st1.fs (pathJoin dest name)).isSome then st1
    else ⟨st1.found, st1.fs ++ [(pathJoin dest name, source)]⟩

/-- The libarchive adapter: `d buf = some entries` when the bytes decode as
an archive whose entries have the given contents (in enumeration order,
each entry fully buffered); `none` when libarchive raises the error the
program catches (`ValueError` or `ArchiveError`, "not an archive"). -/
abbrev Decode := Bytes → Option (List Bytes)

/-- The mutual recursion of `read_archive` and `read_file` on in-memory
buffers: try to decode the buffer as an archive and recurse into each entry;
on decode failure fall back to `read_file`, which for a bytes buffer hashes
it with `hash_mem` and calls `write_file`.  `fuel` bounds the archive
nesting depth explored (the source recurses unboundedly; `fuel = 0` stops). -/
def read_buf (d : Decode) (db : Db) (dest : Str) : Nat → Bytes → St → St
  | 0, _, st => st
  | fuel+1, buf, st =>
    match d buf with
    | some entries => entries.foldl (fun s e => read_buf d db dest fuel e s) st
    | none => write_file db dest buf (hash_mem buf) st

/-- `read_file` of build_pack.py on an on-disk file (identified with its
content): try `read_archive` on the path; if the file is not an archive,
hash it with `hash_file` and call `write_file`. -/
def read_file (d : Decode) (db : Db) (dest : Str) (fuel : Nat) (content : Bytes) (st : St) : St :=
  match d content with
  | some entries => entries.foldl (fun s e => read_buf d db dest fuel e s) st
  | none => write_file db dest content (hash_file content) st

/-- A directory entry: a regular file (with content, and a flag telling
whether reading it succeeds — `ok = false` models a file whose `open` raises
`OSError`), a subdirectory, or anything else (device, broken symlink:
neither `os.path.isdir` nor `os.path.isfile`). -/
inductive Entry where
  | file (name : Str) (content : Bytes) (ok : Bool)
  | dir (name : Str) (children : List Entry)
  | other (name : Str)

/-- Whether `glob.glob(os.path.join(source, '*'))` omits this name: the
`*` pattern does not match names starting with a dot. -/
def hiddenName : Str → Bool
  | [] => false
  | c :: _ => c = '.'

mutual

/-- `read_dir` of build_pack.py: iterate over `glob.glob(source + '/*')`
(which skips dot-names), recursing into subdirectories and reading regular
files; other entries are ignored. -/
def read_dir (d : Decode) (db : Db) (dest : Str) (fuel : Nat) : List Entry → St → St
  | [], st => st
  | e :: rest, st => read_dir d db dest fuel rest (read_dirEntry d db dest fuel e st)

/-- Processing of a single directory child by `read_dir`. -/
def read_dirEntry (d : Decode) (db : Db) (dest : Str) (fuel : Nat) : Entry → St → St
  | .file name content _ok, st =>
    if hiddenName name then st else read_file d db dest fuel content st
  | .dir name children, st =>
    if hiddenName name then st else read_dir d db dest fuel children st
  | .other _, st => st

end

/-- A source root as classified by `main`: a directory, a file (with its
readability flag), or a path that is neither (silently skipped). -/
inductive Src where
  | dir (children : List Entry)
  | file (content : Bytes) (ok : Bool)
  | missing

/-- The source loop of `main`: process each root in order. -/
def runRoots (d : Decode) (db : Db) (dest : Str) (fuel : Nat) : List Src → St → St
  | [], st => st
  | .dir children :: rest, st =>
    runRoots d db dest fuel rest (read_dir d db dest fuel children st)
  | .file content _ok :: rest, st =>
    runRoots d db dest fuel rest (read_file d db dest fuel content st)
  | .missing :: rest, st => runRoots d db dest fuel rest st

/-- The state transformation of a whole run of `main`: if the destination
check or the manifest load fails, `main` returns before touching any source
or the destination; otherwise every root is processed. -/
def mainSt (destOk : Bool) (d : Decode) (lines : List Str) (dest : Str) (fuel : Nat)
    (roots : List Src) (st : St) : St :=
  if destOk = false then st
  else
    match load_smdb lines with
    | .error _ => st
    | .ok db => runRoots d db dest fuel roots st

/-! ## Error-aware run (exception propagation in `main`)

`main` wraps only `load_smdb` in a try block.  An `OSError` raised while
reading a source file propagates out of the source loop uncaught, so the
final report is never printed.  The final report divides by `len(DB)`
without a guard, so an empty index raises `ZeroDivisionError`. -/

inductive RunError where
  | badDestination
  | malformedManifest
  | ioError
  | zeroDivision
deriving DecidableEq

mutual

/-- Error-aware `read_dir`: an unreadable (non-hidden) regular file raises,
and the exception propagates (nothing in the source loop catches it). -/
def read_dirE (d : Decode) (db : Db) (dest : Str) (fuel : Nat) :
    List Entry → St → Except RunError St
  | [], st => .ok st
  | e :: rest, st =>
    match read_dirEntryE d db dest fuel e st with
    | .error er => .error er
    | .ok st1 => read_dirE d db dest fuel rest st1

/-- Error-aware processing of a single directory child. -/
def read_dirEntryE (d : Decode) (db : Db) (dest : Str) (fuel : Nat) :
    Entry → St → Except RunError St
  | .file name content ok, st =>
    if hiddenName name then .ok st
    else if ok then .ok (read_file d db dest fuel content st)
    else .error .ioError
  | .dir name children, st =>
    if hiddenName name then .ok st else read_dirE d db dest fuel children st
  | .other _, st => .ok st

end

/-- Error-aware source loop of `main`: the first uncaught exception aborts
the whole run. -/
def runRootsE (d : Decode) (db : Db) (dest : Str) (fuel : Nat) :
    List Src → St → Except RunError St
  | [], st => .ok st
  | .dir children :: rest, st =>
    match read_dirE d db dest fuel children st with
    | .error er => .error er
    | .ok st1 => runRootsE d db dest fuel rest st1
  | .file content ok :: rest, st =>
    if ok then runRootsE d db dest fuel rest (read_file d db dest fuel content st)
    else .error .ioError
  | .missing :: rest, st => runRootsE d db dest fuel rest st

mutual

/-- All non-hidden regular files reachable in these entries are readable
(no `OSError` is raised while traversing them). -/
def entriesOk : List Entry → Bool
  | [] => true
  | e :: rest => entryOk e && entriesOk rest

/-- Readability of the files reachable through one entry. -/
def entryOk : Entry → Bool
  | .file name _ ok => hiddenName name || ok
  | .dir name children => hiddenName name || entriesOk children
  | .other _ => true

end

def srcOk : Src → Bool
  | .dir children => entriesOk children
  | .file _ ok => ok
  | .missing => true

def srcsOk : List Src → Bool
  | [] => true
  | r :: rest => srcOk r && srcsOk rest

/-- Python float division: raises `ZeroDivisionError` on a zero denominator. -/
def pyDiv (a b : Rat) : Except RunError Rat :=
  if b = 0 then .error .zeroDivision else .ok (a / b)

/-- The observable outcome of `main`: either an uncaught error (or an early
return on a bad destination or malformed manifest — no final report in
either case), or the final report `(len(FOUND), len(DB), percentage)` with
the percentage computed as `100 * float(len(FOUND)) / float(len(DB))`. -/
def mainE (destOk : Bool) (d : Decode) (lines : List Str) (dest : Str) (fuel : Nat)
    (roots : List Src) (st : St) : Except RunError (Nat × Nat × Rat) :=
  if destOk = false then .error .badDestination
  else
    match load_smdb lines with
    | .error _ => .error .malformedManifest
    | .ok db =>
      match runRootsE d db dest fuel roots st with
      | .error er => .error er
      | .ok st2 =>
        match pyDiv (100 * (st2.found.length : Rat)) ((db.length : Rat)) with
        | .error er => .error er
        | .ok pct => .ok (st2.found.length, db.length, pct)

/-! ## Leaf sequences

The traversal visits a sequence of leaf blobs determined by the inputs
alone (the state never influences which blobs are visited); each visit
hashes the blob and calls `write_file`.  The `leaves` functions compute
that sequence, and the normal-form lemmas below equate each traversal
function with a fold of `wstep` over its leaf sequence. -/

/-- One leaf visit: hash the blob and call `write_file`. -/
def wstep (db : Db) (dest : Str) (st : St) (c : Bytes) : St :=
  write_file db dest c (hash_mem c) st

def leavesB (d : Decode) : Nat → Bytes → List Bytes
  | 0, _ => []
  | fuel+1, buf =>
    match d buf with
    | some entries => (entries.map (leavesB d fuel)).foldr (fun a b => a ++ b) []
    | none => [buf]

def leavesF (d : Decode) (fuel : Nat) (content : Bytes) : List Bytes :=
  match d content with
  | some entries => (entries.map (leavesB d fuel)).foldr (fun a b => a ++ b) []
  | none => [content]

mutual

def leavesDir (d : Decode) (fuel : Nat) : List Entry → List Bytes
  | [] => []
  | e :: rest => leavesEntry d fuel e ++ leavesDir d fuel rest

def leavesEntry (d : Decode) (fuel : Nat) : Entry → List Bytes
  | .file name content _ok => if hiddenName name then [] else leavesF d fuel content
  | .dir name children => if hiddenName name then [] else leavesDir d fuel children
  | .other _ => []

end

def leavesRun (d : Decode) (fuel : Nat) : List Src → List Bytes
  | [] => []
  | .dir children :: rest => leavesDir d fuel children ++ leavesRun d fuel rest
  | .file content _ok :: rest => leavesF d fuel content ++ leavesRun d fuel rest
  | .missing :: rest => leavesRun d fuel rest

/-! ## Derived characterizations and concrete inputs -/

/-- A line that `load_smdb` accepts: after stripping it splits into exactly
five TAB-separated fields and its first field is a 64-character string that
`bytearray.fromhex` accepts. -/
def goodLine (l : Str) : Bool :=
  match pySplitTab 4 (pyStrip l) with
  | [sha, _, _, _, _] => (sha.length == 64) && (pyFromHex sha).isSome
  | _ => false

/-- Whether the hash field (the first TAB-separated field) of a line, taken
on its own, is a well-formed 64-character hex digest. -/
def hashFieldOk (l : Str) : Bool :=
  match pySplitTab 4 (pyStrip l) with
  | sha :: _ => (sha.length == 64) && (pyFromHex sha).isSome
  | [] => false

def matchStep (hsh : Bytes) (acc : Option Str) (l : Str) : Option Str :=
  match parseLine l with
  | .ok (k, v) => if k = hsh then some v else acc
  | .error _ => acc

/-- The filename of the last line in `ls` whose parsed hash equals `hsh`. -/
def lastHashMatch (hsh : Bytes) (ls : List Str) : Option Str :=
  ls.foldl (matchStep hsh) none

/-- The effect of one leaf visit on `FOUND` alone: the hash is recorded
exactly when it is a key of the index, independently of the file system. -/
def foundStep (db : Db) (found : List Bytes) (c : Bytes) : List Bytes :=
  match lookupDb db (hash_mem c) with
  | none => found
  | some _ => addFound (hash_mem c) found

/-- `Wraps d b n w`: the bytes `w` are the blob `b` wrapped inside `n`
levels of archive containers (each level an archive whose sole entry is the
next level down), as seen through the decode function `d`. -/
inductive Wraps (d : Decode) (b : Bytes) : Nat → Bytes → Prop where
  | zero : Wraps d b 0 b
  | succ : ∀ {n inner w}, Wraps d b n inner → d w = some [inner] → Wraps d b (n + 1) w

/-- A 64-character hash field of hex digit 0xaa bytes. -/
def hex64a : Str := List.replicate 64 'a'

/-- A well-formed SMDB line with filename `name1`. -/
def smdbLineA : Str := hex64a ++ ("\tname1\ts\tm\tc\n").data

/-- A second well-formed SMDB line with the same hash and filename `name2`. -/
def smdbLineB : Str := hex64a ++ ("\tname2\ts\tm\tc\n").data

/-- A line whose hash field is a perfectly well-formed 64-hex-digit digest
but which has only two TAB-separated fields. -/
def smdbLineFew : Str := hex64a ++ ("\tname").data

/-- The index built from `smdbLineA` alone. -/
def demoDb : Db := [(List.replicate 32 170, ("name1").data)]

/-- An index whose single entry is the hash of the one-byte blob `[1]`. -/
def demoDb1 : Db := [(hash_mem [1], ("out").data)]

/-- A decode function under which `[100]` is an archive containing the
archive `[101]`, whose sole entry is the leaf blob `[5]`. -/
def dChain : Decode := fun buf =>
  if buf = [100] then some [[101]] else if buf = [101] then some [[5]] else none

/-! ## Hash lemmas -/

theorem chunkAux_join (n : Nat) : ∀ (l acc : Bytes), listJoin (chunkAux n acc l) = acc.reverse ++ l := by
  intro l
  induction l with
  | nil =>
    intro acc
    by_cases h : acc = [] <;> simp [chunkAux, h, listJoin]
  | cons b rest ih =>
    intro acc
    simp only [chunkAux, listJoin] at *
    by_cases h : acc.length + 1 = n
    · simp [h, ih]
    · simp [h, ih]

theorem foldl_append_eq (ls : List Bytes) : ∀ acc : Bytes,
    ls.foldl (fun a b => a ++ b) acc = acc ++ listJoin ls := by
  induction ls with
  | nil => intro acc; simp [listJoin]
  | cons x t ih => intro acc; simp [listJoin, ih]

theorem hash_file_eq_hash_mem (content : Bytes) : hash_file content = hash_mem content := by
  unfold hash_file hash_mem pyReadChunks
  have hupd : shaUpdate = fun a b => a ++ b := rfl
  rw [hupd, foldl_append_eq, chunkAux_join]
  simp

/-! ## `write_file` lemmas -/

theorem fsLookup_append_left {fs : List (Str × Bytes)} {p : Str} {v : Bytes}
    (h : fsLookup fs p = some v) (l : List (Str × Bytes)) : fsLookup (fs ++ l) p = some v := by
  induction fs with
  | nil => simp [fsLookup] at h
  | cons q rest ih =>
    obtain ⟨q1, q2⟩ := q
    by_cases hq : q1 = p <;> simp only [fsLookup, List.cons_append, hq, if_true, if_false,
      reduceIte] at h ⊢ <;> simp_all

theorem fsLookup_append_self (fs : List (Str × Bytes)) (p : Str) (c : Bytes) :
    (fsLookup (fs ++ [(p, c)]) p).isSome := by
  induction fs with
  | nil => simp [fsLookup]
  | cons q rest ih =>
    obtain ⟨q1, q2⟩ := q
    by_cases hq : q1 = p <;> simp [fsLookup, hq, ih]

theorem lookupDb_mem_keys {db : Db} {h : Bytes} {name : Str}
    (hl : lookupDb db h = some name) : h ∈ dbKeys db := by
  induction db with
  | nil => simp [lookupDb] at hl
  | cons e t ih =>
    obtain ⟨k, v⟩ := e
    by_cases hk : k = h
    · simp [dbKeys, hk]
    · simp only [lookupDb, hk, if_false, reduceIte] at hl
      simp [dbKeys] at ih ⊢
      exact Or.inr (ih hl)

theorem write_file_fs_preserve (db : Db) (dest : Str) (c h : Bytes) (st : St)
    {p : Str} {v : Bytes} (hp : fsLookup st.fs p = some v) :
    fsLookup (write_file db dest c h st).fs p = some v := by
  unfold write_file
  cases hl : lookupDb db h with
  | none => exact hp
  | some name =>
    dsimp only
    split
    · exact hp
    · exact fsLookup_append_left hp _

theorem write_file_fs_isSome (db : Db) (dest : Str) (c h : Bytes) (st : St)
    {p : Str} (hp : (fsLookup st.fs p).isSome) :
    (fsLookup (write_file db dest c h st).fs p).isSome := by
  obtain ⟨v, hv⟩ := Option.isSome_iff_exists.mp hp
  rw [write_file_fs_preserve db dest c h st hv]
  rfl

theorem write_file_found_mono (db : Db) (dest : Str) (c h : Bytes) (st : St)
    {x : Bytes} (hx : x ∈ st.found) : x ∈ (write_file db dest c h st).found := by
  unfold write_file
  cases hl : lookupDb db h with
  | none => exact hx
  | some name =>
    dsimp only
    have hadd : x ∈ addFound h st.found := by
      unfold addFound
      split
      · exact hx
      · exact List.mem_append_left _ hx
    split <;> exact hadd

theorem write_file_found_sub (db : Db) (dest : Str) (c h : Bytes) (st : St)
    {x : Bytes} (hx : x ∈ (write_file db dest c h st).found) :
    x ∈ st.found ∨ x ∈ dbKeys db := by
  unfold write_file at hx
  cases hl : lookupDb db h with
  | none => rw [hl] at hx; exact Or.inl hx
  | some name =>
    rw [hl] at hx
    dsimp only at hx
    have hadd : x ∈ addFound h st.found → x ∈ st.found ∨ x ∈ dbKeys db := by
      intro hm
      unfold addFound at hm
      split at hm
      · exact Or.inl hm
      · rcases List.mem_append.mp hm with hm1 | hm2
        · exact Or.inl hm1
        · simp at hm2
          subst hm2
          exact Or.inr (lookupDb_mem_keys hl)
    split at hx <;> exact hadd hx

theorem write_file_fs_eq (db : Db) (dest : Str) (c h : Bytes) (st : St)
    {name : Str} (hl : lookupDb db h = some name)
    (hex : (fsLookup st.fs (pathJoin dest name)).isSome) :
    (write_file db dest c h st).fs = st.fs := by
  unfold write_file
  rw [hl]
  dsimp only
  rw [if_pos hex]

theorem write_file_fs_none (db : Db) (dest : Str) (c h : Bytes) (st : St)
    (hl : lookupDb db h = none) : write_file db dest c h st = st := by
  unfold write_file
  rw [hl]

theorem wstep_found (db : Db) (dest : Str) (st : St) (c : Bytes) :
    (wstep db dest st c).found = foundStep db st.found c := by
  unfold wstep write_file foundStep
  cases hl : lookupDb db (hash_mem c) with
  | none => rfl
  | some name =>
    dsimp only
    split <;> rfl

theorem write_file_post (db : Db) (dest : Str) (c h : Bytes) (st : St)
    {name : Str} (hl : lookupDb db h = some name) :
    (fsLookup (write_file db dest c h st).fs (pathJoin dest name)).isSome := by
  unfold write_file
  rw [hl]
  dsimp only
  split
  · assumption
  · exact fsLookup_append_self _ _ _

/-! ## Fold-level invariant lemmas

Every traversal is a fold of `wstep` over a state-independent leaf
sequence; these lemmas propagate the `write_file` facts through such folds. -/

theorem foldl_wstep_fs_preserve (db : Db) (dest : Str) :
    ∀ (ws : List Bytes) (st : St) {p : Str} {v : Bytes},
      fsLookup st.fs p = some v →
      fsLookup ((ws.foldl (wstep db dest) st).fs) p = some v := by
  intro ws
  induction ws with
  | nil => intro st p v hp; exact hp
  | cons c t ih =>
    intro st p v hp
    exact ih _ (write_file_fs_preserve db dest c (hash_mem c) st hp)

theorem foldl_wstep_fs_isSome (db : Db) (dest : Str)
    (ws : List Bytes) (st : St) {p : Str}
    (hp : (fsLookup st.fs p).isSome) :
    (fsLookup ((ws.foldl (wstep db dest) st).fs) p).isSome := by
  obtain ⟨v, hv⟩ := Option.isSome_iff_exists.mp hp
  rw [foldl_wstep_fs_preserve db dest ws st hv]
  rfl

theorem foldl_wstep_found_mono (db : Db) (dest : Str) :
    ∀ (ws : List Bytes) (st : St) {x : Bytes},
      x ∈ st.found → x ∈ (ws.foldl (wstep db dest) st).found := by
  intro ws
  induction ws with
  | nil => intro st x hx; exact hx
  | cons c t ih =>
    intro st x hx
    exact ih _ (write_file_found_mono db dest c (hash_mem c) st hx)

theorem foldl_wstep_found_sub (db : Db) (dest : Str) :
    ∀ (ws : List Bytes) (st : St),
      (∀ x ∈ st.found, x ∈ dbKeys db) →
      ∀ x ∈ (ws.foldl (wstep db dest) st).found, x ∈ dbKeys db := by
  intro ws
  induction ws with
  | nil => intro st hs x hx; exact hs x hx
  | cons c t ih =>
    intro st hs x hx
    refine ih _ ?_ x hx
    intro y hy
    rcases write_file_found_sub db dest c (hash_mem c) st hy with h1 | h2
    · exact hs y h1
    · exact h2

theorem foldl_wstep_post (db : Db) (dest : Str) :
    ∀ (ws : List Bytes) (st : St) {c : Bytes},
      c ∈ ws → ∀ {name : Str}, lookupDb db (hash_mem c) = some name →
      (fsLookup ((ws.foldl (wstep db dest) st).fs) (pathJoin dest name)).isSome := by
  intro ws
  induction ws with
  | nil => intro st c hc; simp at hc
  | cons c0 t ih =>
    intro st c hc name hn
    rcases List.mem_cons.mp hc with rfl | hmem
    · exact foldl_wstep_fs_isSome db dest t _ (write_file_post db dest c (hash_mem c) st hn)
    · exact ih _ hmem hn

theorem foldl_wstep_fs_fix (db : Db) (dest : Str) :
    ∀ (ws : List Bytes) (st : St),
      (∀ c ∈ ws, ∀ name, lookupDb db (hash_mem c) = some name →
        (fsLookup st.fs (pathJoin dest name)).isSome) →
      ((ws.foldl (wstep db dest) st).fs) = st.fs := by
  intro ws
  induction ws with
  | nil => intro st _; rfl
  | cons c t ih =>
    intro st hsat
    have hfs : (wstep db dest st c).fs = st.fs := by
      unfold wstep
      cases hl : lookupDb db (hash_mem c) with
      | none => rw [write_file_fs_none db dest c (hash_mem c) st hl]
      | some name =>
        exact write_file_fs_eq db dest c (hash_mem c) st hl
          (hsat c (List.mem_cons_self c t) name hl)
    rw [List.foldl_cons, ih (wstep db dest st c) ?_, hfs]
    intro c2 hc2 name hn
    rw [hfs]
    exact hsat c2 (List.mem_cons_of_mem c hc2) name hn

theorem foldl_wstep_found_det (db : Db) (dest : Str) :
    ∀ (ws : List Bytes) (st : St),
      (ws.foldl (wstep db dest) st).found = ws.foldl (foundStep db) st.found := by
  intro ws
  induction ws with
  | nil => intro st; rfl
  | cons c t ih =>
    intro st
    rw [List.foldl_cons, List.foldl_cons, ih, wstep_found]

/-! ## Normal-form lemmas: traversal as a fold over the leaf sequence -/

theorem foldl_read_buf_eq (d : Decode) (db : Db) (dest : Str) (fuel : Nat)
    (H : ∀ (b : Bytes) (st : St),
      read_buf d db dest fuel b st = (leavesB d fuel b).foldl (wstep db dest) st) :
    ∀ (es : List Bytes) (st : St),
      es.foldl (fun s e => read_buf d db dest fuel e s) st =
        ((es.map (leavesB d fuel)).foldr (fun a b => a ++ b) []).foldl (wstep db dest) st := by
  intro es
  induction es with
  | nil => intro st; rfl
  | cons e t ih =>
    intro st
    rw [List.foldl_cons, ih, List.map_cons, List.foldr_cons, List.foldl_append, H]

theorem read_buf_eq (d : Decode) (db : Db) (dest : Str) :
    ∀ (fuel : Nat) (buf : Bytes) (st : St),
      read_buf d db dest fuel buf st = (leavesB d fuel buf).foldl (wstep db dest) st := by
  intro fuel
  induction fuel with
  | zero => intro buf st; rfl
  | succ f ih =>
    intro buf st
    unfold read_buf leavesB
    cases hd : d buf with
    | some entries => exact foldl_read_buf_eq d db dest f ih entries st
    | none => rfl

theorem read_file_eq (d : Decode) (db : Db) (dest : Str) (fuel : Nat)
    (content : Bytes) (st : St) :
    read_file d db dest fuel content st = (leavesF d fuel content).foldl (wstep db dest) st := by
  unfold read_file leavesF
  cases hd : d content with
  | some entries => exact foldl_read_buf_eq d db dest fuel (read_buf_eq d db dest fuel) entries st
  | none =>
    show write_file db dest content (hash_file content) st = wstep db dest st content
    rw [hash_file_eq_hash_mem]
    rfl

mutual

theorem read_dir_eq (d : Decode) (db : Db) (dest : Str) (fuel : Nat) :
    ∀ (es : List Entry) (st : St),
      read_dir d db dest fuel es st = (leavesDir d fuel es).foldl (wstep db dest) st
  | [], st => by simp [read_dir, leavesDir]
  | e :: rest, st => by
    rw [read_dir, leavesDir, List.foldl_append,
      read_dirEntry_eq d db dest fuel e st, read_dir_eq d db dest fuel rest _]

theorem read_dirEntry_eq (d : Decode) (db : Db) (dest : Str) (fuel : Nat) :
    ∀ (e : Entry) (st : St),
      read_dirEntry d db dest fuel e st = (leavesEntry d fuel e).foldl (wstep db dest) st
  | .file name content ok, st => by
    rw [read_dirEntry, leavesEntry]
    by_cases hn : hiddenName name
    · simp [hn]
    · simp only [hn, if_false, reduceIte]
      exact read_file_eq d db dest fuel content st
  | .dir name children, st => by
    rw [read_dirEntry, leavesEntry]
    by_cases hn : hiddenName name
    · simp [hn]
    · simp only [hn, if_false, reduceIte]
      exact read_dir_eq d db dest fuel children st
  | .other nm, st => by simp [read_dirEntry, leavesEntry]

end

theorem runRoots_eq (d : Decode) (db : Db) (dest : Str) (fuel : Nat) :
    ∀ (roots : List Src) (st : St),
      runRoots d db dest fuel roots st = (leavesRun d fuel roots).foldl (wstep db dest) st := by
  intro roots
  induction roots with
  | nil => intro st; rfl
  | cons r rest ih =>
    intro st
    cases r with
    | dir children =>
      rw [runRoots, leavesRun, List.foldl_append, read_dir_eq, ih]
    | file content ok =>
      rw [runRoots, leavesRun, List.foldl_append, read_file_eq, ih]
    | missing => rw [runRoots, leavesRun, ih]

/-! ## Sorting and manifest lemmas -/

theorem insSorted_perm (le : Str → Str → Bool) (x : Str) :
    ∀ l : List Str, (insSorted le x l).Perm (x :: l) := by
  intro l
  induction l with
  | nil => simp [insSorted]
  | cons y ys ih =>
    rw [insSorted]
    split
    · exact List.Perm.refl _
    · exact ((ih.cons y).trans (List.Perm.swap x y ys)).symm.symm

theorem insertionSort_perm (le : Str → Str → Bool) :
    ∀ l : List Str, (insertionSort le l).Perm l := by
  intro l
  induction l with
  | nil => exact List.Perm.refl _
  | cons x xs ih =>
    rw [insertionSort]
    exact (insSorted_perm le x (insertionSort le xs)).trans (ih.cons x)

theorem mem_sortLines {l : Str} {lines : List Str} : l ∈ sortLines lines ↔ l ∈ lines :=
  (insertionSort_perm lineLe lines).mem_iff

theorem parseLine_error_iff (l : Str) : parseLine l = .error () ↔ goodLine l = false := by
  unfold parseLine goodLine
  rcases hp : pySplitTab 4 (pyStrip l) with _ | ⟨sha, ps⟩
  · simp
  rcases ps with _ | ⟨f2, ps⟩
  · simp
  rcases ps with _ | ⟨f3, ps⟩
  · simp
  rcases ps with _ | ⟨f4, ps⟩
  · simp
  rcases ps with _ | ⟨f5, ps⟩
  · simp
  rcases ps with _ | ⟨f6, ps⟩
  · by_cases hlen : sha.length = 64
    · simp only [hlen, if_true, reduceIte]
      cases hfh : pyFromHex sha <;> simp [hfh]
    · simp [hlen]
  · simp

theorem loadAux_error_iff : ∀ (ls : List Str) (db : Db),
    loadAux ls db = .error () ↔ ∃ l ∈ ls, parseLine l = .error () := by
  intro ls
  induction ls with
  | nil => intro db; simp [loadAux]
  | cons l t ih =>
    intro db
    rw [loadAux]
    cases hp : parseLine l with
    | ok r =>
      obtain ⟨h, name⟩ := r
      dsimp only
      rw [ih]
      constructor
      · intro ⟨l2, hl2, he⟩
        exact ⟨l2, List.mem_cons_of_mem l hl2, he⟩
      · intro ⟨l2, hl2, he⟩
        rcases List.mem_cons.mp hl2 with rfl | hmem
        · rw [hp] at he; cases he
        · exact ⟨l2, hmem, he⟩
    | error e =>
      obtain rfl : e = () := rfl
      simp only [true_iff]
      exact ⟨l, List.mem_cons_self l t, hp⟩

theorem lookupDb_dbInsert_self : ∀ (db : Db) (k : Bytes) (v : Str),
    lookupDb (dbInsert db k v) k = some v := by
  intro db
  induction db with
  | nil => intro k v; simp [dbInsert, lookupDb]
  | cons e t ih =>
    intro k v
    obtain ⟨k0, v0⟩ := e
    rw [dbInsert]
    by_cases hk : k0 = k
    · simp [hk, lookupDb]
    · simp only [hk, if_false, reduceIte]
      rw [lookupDb, if_neg hk]
      exact ih k v

theorem lookupDb_dbInsert_ne : ∀ (db : Db) (k : Bytes) (v : Str) {h : Bytes},
    k ≠ h → lookupDb (dbInsert db k v) h = lookupDb db h := by
  intro db
  induction db with
  | nil => intro k v h hne; simp [dbInsert, lookupDb, hne]
  | cons e t ih =>
    intro k v h hne
    obtain ⟨k0, v0⟩ := e
    rw [dbInsert]
    by_cases hk : k0 = k
    · subst hk
      rw [if_pos rfl]
      simp only [lookupDb]
      rw [if_neg hne, if_neg hne]
    · rw [if_neg hk]
      simp only [lookupDb]
      by_cases hkh : k0 = h
      · rw [if_pos hkh, if_pos hkh]
      · rw [if_neg hkh, if_neg hkh]
        exact ih k v hne

theorem foldl_matchStep_acc (hsh : Bytes) : ∀ (ls : List Str) (acc : Option Str),
    ls.foldl (matchStep hsh) acc =
      (match ls.foldl (matchStep hsh) none with
       | some v => some v
       | none => acc) := by
  intro ls
  induction ls with
  | nil => intro acc; rfl
  | cons l t ih =>
    intro acc
    rw [List.foldl_cons, List.foldl_cons, ih (matchStep hsh acc l), ih (matchStep hsh none l)]
    cases hft : t.foldl (matchStep hsh) none with
    | some v => rfl
    | none =>
      dsimp only
      unfold matchStep
      cases hp : parseLine l with
      | ok r =>
        obtain ⟨k, v⟩ := r
        dsimp only
        by_cases hk : k = hsh <;> simp [hk]
      | error e => rfl

theorem loadAux_ok_lookup : ∀ (ls : List Str) (db0 db : Db),
    loadAux ls db0 = .ok db → ∀ hsh : Bytes,
      lookupDb db hsh =
        (match lastHashMatch hsh ls with
         | some v => some v
         | none => lookupDb db0 hsh) := by
  intro ls
  induction ls with
  | nil =>
    intro db0 db hok hsh
    cases hok
    rfl
  | cons l t ih =>
    intro db0 db hok hsh
    rw [loadAux] at hok
    cases hp : parseLine l with
    | error e => rw [hp] at hok; cases hok
    | ok r =>
      obtain ⟨k, v⟩ := r
      rw [hp] at hok
      dsimp only at hok
      have hrec := ih (dbInsert db0 k v) db hok hsh
      unfold lastHashMatch at hrec ⊢
      rw [List.foldl_cons, foldl_matchStep_acc hsh t (matchStep hsh none l)]
      cases hft : t.foldl (matchStep hsh) none with
      | some v2 =>
        rw [hft] at hrec
        exact hrec
      | none =>
        rw [hft] at hrec
        rw [hrec]
        dsimp only
        unfold matchStep
        rw [hp]
        dsimp only
        by_cases hk : k = hsh
        · subst hk
          rw [if_pos rfl]
          exact lookupDb_dbInsert_self db0 k v
        · rw [if_neg hk]
          exact lookupDb_dbInsert_ne db0 k v hk

/-! ## Error propagation lemmas -/

mutual

theorem read_dirE_ok (d : Decode) (db : Db) (dest : Str) (fuel : Nat) :
    ∀ (es : List Entry) (st : St), entriesOk es = true →
      read_dirE d db dest fuel es st = .ok (read_dir d db dest fuel es st)
  | [], st => by intro _; rfl
  | e :: rest, st => by
    intro hok
    rw [entriesOk] at hok
    obtain ⟨hoke, hokr⟩ := Bool.and_eq_true_iff.mp hok
    rw [read_dirE, read_dirEntryE_ok d db dest fuel e st hoke]
    dsimp only
    rw [read_dirE_ok d db dest fuel rest _ hokr, read_dir]

theorem read_dirEntryE_ok (d : Decode) (db : Db) (dest : Str) (fuel : Nat) :
    ∀ (e : Entry) (st : St), entryOk e = true →
      read_dirEntryE d db dest fuel e st = .ok (read_dirEntry d db dest fuel e st)
  | .file name content ok, st => by
    intro hok
    rw [entryOk] at hok
    rw [read_dirEntryE, read_dirEntry]
    by_cases hn : hiddenName name
    · simp [hn]
    · simp only [hn, if_false, reduceIte, Bool.false_or] at hok ⊢
      rw [hok]
      simp
  | .dir name children, st => by
    intro hok
    rw [entryOk] at hok
    rw [read_dirEntryE, read_dirEntry]
    by_cases hn : hiddenName name
    · simp [hn]
    · simp only [hn, if_false, reduceIte, Bool.false_or] at hok ⊢
      exact read_dirE_ok d db dest fuel children st hok
  | .other nm, st => by intro _; rfl

end

theorem runRootsE_ok (d : Decode) (db : Db) (dest : Str) (fuel : Nat) :
    ∀ (roots : List Src) (st : St), srcsOk roots = true →
      runRootsE d db dest fuel roots st = .ok (runRoots d db dest fuel roots st) := by
  intro roots
  induction roots with
  | nil => intro st _; rfl
  | cons r rest ih =>
    intro st hok
    rw [srcsOk] at hok
    obtain ⟨hokr, hokrest⟩ := Bool.and_eq_true_iff.mp hok
    cases r with
    | dir children =>
      rw [runRootsE, read_dirE_ok d db dest fuel children st hokr]
      dsimp only
      rw [ih _ hokrest, runRoots]
    | file content ok =>
      rw [srcOk] at hokr
      rw [runRootsE, if_pos hokr, ih _ hokrest, runRoots]
    | missing =>
      rw [runRootsE, ih _ hokrest, runRoots]

/-- Successful end of a run: with a well-formed non-empty manifest and no
read failure among the roots, `main` reaches its final report. -/
theorem mainE_report (d : Decode) (lines : List Str) (dest : Str) (fuel : Nat)
    (roots : List Src) (st : St) (db : Db)
    (hload : load_smdb lines = .ok db) (hne : db ≠ []) (hok : srcsOk roots = true) :
    mainE true d lines dest fuel roots st =
      .ok ((runRoots d db dest fuel roots st).found.length, db.length,
        100 * ((runRoots d db dest fuel roots st).found.length : Rat) / (db.length : Rat)) := by
  unfold mainE
  rw [if_neg (by simp), hload]
  dsimp only
  rw [runRootsE_ok d db dest fuel roots st hok]
  dsimp only
  unfold pyDiv
  have hz : ((db.length : Rat)) ≠ 0 := by
    simp only [ne_eq, Nat.cast_eq_zero, List.length_eq_zero]
    exact hne
  rw [if_neg hz]

/-! ## Nesting chains -/

theorem read_buf_wraps {d : Decode} {b : Bytes} {n : Nat} {w : Bytes}
    (hleaf : d b = none) (hw : Wraps d b n w) (db : Db) (dest : Str) :
    ∀ (fuel : Nat) (st : St), n < fuel →
      read_buf d db dest fuel w st = write_file db dest b (hash_mem b) st := by
  induction hw with
  | zero =>
    intro fuel st hf
    obtain ⟨f, rfl⟩ : ∃ f, fuel = f + 1 := ⟨fuel - 1, by omega⟩
    rw [read_buf, hleaf]
  | succ hw harch ih =>
    intro fuel st hf
    obtain ⟨f, rfl⟩ : ∃ f, fuel = f + 1 := ⟨fuel - 1, by omega⟩
    rw [read_buf, harch]
    dsimp only
    rw [List.foldl_cons, List.foldl_nil]
    exact ih f st (by omega)

/-! ## Idempotence of the source loop -/

theorem runRoots_idem (d : Decode) (db : Db) (dest : Str) (fuel : Nat) (roots : List Src)
    (fs0 : List (Str × Bytes)) :
    runRoots d db dest fuel roots ⟨[], (runRoots d db dest fuel roots ⟨[], fs0⟩).fs⟩ =
      runRoots d db dest fuel roots ⟨[], fs0⟩ := by
  rw [runRoots_eq, runRoots_eq]
  apply St.ext
  · rw [foldl_wstep_found_det, foldl_wstep_found_det]
  · have hsat : ∀ c ∈ leavesRun d fuel roots, ∀ name,
        lookupDb db (hash_mem c) = some name →
        (fsLookup ((⟨[], ((leavesRun d fuel roots).foldl (wstep db dest) ⟨[], fs0⟩).fs⟩ : St).fs)
          (pathJoin dest name)).isSome := by
      intro c hc name hn
      exact foldl_wstep_post db dest (leavesRun d fuel roots) ⟨[], fs0⟩ hc hn
    rw [foldl_wstep_fs_fix db dest (leavesRun d fuel roots) _ hsat]

/-! ## Claim theorems -/

/-- Claim C1: nesting transparency.  A leaf blob `b` (one that does not
decode as an archive) wrapped inside `n ≤ 3` levels of archive containers
is resolved by `read_file` to exactly the same final state — same hash
computed and looked up, same `FOUND` update, same file materialized at the
same path — as the bare blob `b` presented as a top-level file, provided
the recursion explores at least `n` levels. -/
theorem c1_nesting_transparency (d : Decode) (db : Db) (dest : Str) (b w : Bytes)
    (n fuel : Nat) (st : St) (hleaf : d b = none) (hw : Wraps d b n w)
    (hn : n ≤ 3) (hfuel : n ≤ fuel) :
    read_file d db dest fuel w st = read_file d db dest fuel b st := by
  have hbare : read_file d db dest fuel b st = write_file db dest b (hash_mem b) st := by
    unfold read_file
    rw [hleaf, hash_file_eq_hash_mem]
  cases hw with
  | zero => rfl
  | succ hw2 harch =>
    rw [hbare]
    unfold read_file
    rw [harch]
    dsimp only
    rw [List.foldl_cons, List.foldl_nil]
    exact read_buf_wraps hleaf hw2 db dest fuel st (by omega)

/-- Witness for C1: the blob `[5]` wrapped in two nested archives (`[100]`
containing `[101]` containing `[5]`) resolves like the bare blob `[5]`. -/
theorem c1_nesting_transparency_witness :
    read_file dChain [] (("o").data) 2 [100] ⟨[], []⟩ =
      read_file dChain [] (("o").data) 2 [5] ⟨[], []⟩ :=
  c1_nesting_transparency dChain [] (("o").data) [5] [100] 2 2 ⟨[], []⟩ (by decide)
    (@Wraps.succ dChain [5] 1 [101] [100]
      (@Wraps.succ dChain [5] 0 [5] [101] Wraps.zero (by decide)) (by decide))
    (by decide) (by decide)

/-- Claim C2: no overwrite / first writer wins.  If a hash is in the index
and its target output path already exists, `write_file` leaves the file
system of the state completely unchanged (so the pre-existing bytes are
untouched and nothing is written), and — consequently — any file present in
the output tree at any point of a run still holds the same bytes after the
rest of the run. -/
theorem c2_no_overwrite (db : Db) (dest : Str) (c h : Bytes) (st : St) (name : Str)
    (v : Bytes) (d : Decode) (fuel : Nat) (roots : List Src)
    (hname : lookupDb db h = some name)
    (hex : fsLookup st.fs (pathJoin dest name) = some v) :
    (write_file db dest c h st).fs = st.fs ∧
      ∀ p w, fsLookup st.fs p = some w →
        fsLookup ((runRoots d db dest fuel roots st).fs) p = some w := by
  constructor
  · exact write_file_fs_eq db dest c h st hname (by rw [hex]; rfl)
  · intro p w hp
    rw [runRoots_eq]
    exact foldl_wstep_fs_preserve db dest _ st hp

/-- Witness for C2 at a concrete index, blob and pre-existing output file. -/
theorem c2_no_overwrite_witness :
    (write_file demoDb (("o").data) [9] (List.replicate 32 170)
        ⟨[], [(pathJoin (("o").data) (("name1").data), [7])]⟩).fs =
      (⟨[], [(pathJoin (("o").data) (("name1").data), [7])]⟩ : St).fs ∧
    ∀ p w,
      fsLookup (⟨[], [(pathJoin (("o").data) (("name1").data), [7])]⟩ : St).fs p = some w →
      fsLookup ((runRoots dChain demoDb (("o").data) 1 []
          ⟨[], [(pathJoin (("o").data) (("name1").data), [7])]⟩).fs) p = some w :=
  c2_no_overwrite demoDb (("o").data) [9] (List.replicate 32 170)
    ⟨[], [(pathJoin (("o").data) (("name1").data), [7])]⟩ (("name1").data) [7]
    dChain 1 [] (by decide) (by decide)

/-- Claim C3: Found Set containment and monotonicity.  `write_file` (the
only operation that touches `FOUND`) adds a hash only if it is a key of the
index; across a whole run, `FOUND` stays a subset of the index keys and
never loses an element. -/
theorem c3_found_containment (db : Db) (dest : Str) (c h0 : Bytes) (st : St)
    (d : Decode) (fuel : Nat) (roots : List Src)
    (hsub : ∀ x ∈ st.found, x ∈ dbKeys db) :
    (∀ x ∈ (write_file db dest c h0 st).found, x ∈ st.found ∨ x ∈ dbKeys db) ∧
    (∀ x ∈ (runRoots d db dest fuel roots st).found, x ∈ dbKeys db) ∧
    (∀ x ∈ st.found, x ∈ (runRoots d db dest fuel roots st).found) := by
  refine ⟨?_, ?_, ?_⟩
  · intro x hx
    exact write_file_found_sub db dest c h0 st hx
  · intro x hx
    rw [runRoots_eq] at hx
    exact foldl_wstep_found_sub db dest _ st hsub x hx
  · intro x hx
    rw [runRoots_eq]
    exact foldl_wstep_found_mono db dest _ st hx

/-- Witness for C3 at a concrete index, blob and run. -/
theorem c3_found_containment_witness :
    (∀ x ∈ (write_file demoDb (("o").data) [1] (List.replicate 32 170) ⟨[], []⟩).found,
        x ∈ (⟨[], []⟩ : St).found ∨ x ∈ dbKeys demoDb) ∧
    (∀ x ∈ (runRoots dChain demoDb (("o").data) 1 [Src.missing] ⟨[], []⟩).found,
        x ∈ dbKeys demoDb) ∧
    (∀ x ∈ (⟨[], []⟩ : St).found,
        x ∈ (runRoots dChain demoDb (("o").data) 1 [Src.missing] ⟨[], []⟩).found) :=
  c3_found_containment demoDb (("o").data) [1] (List.replicate 32 170) ⟨[], []⟩
    dChain 1 [Src.missing] (by simp)

/-- Counterexample for C4 as stated: this line's hash field is a perfectly
well-formed 64-character hex digest, yet `load_smdb` raises (the line has
only two TAB-separated fields, so the five-way unpacking raises
`ValueError`), contradicting the claimed "fails exactly when the hash field
is not 64 hex characters". -/
theorem c4_malformed_counterexample :
    load_smdb [smdbLineFew] = .error () ∧ hashFieldOk smdbLineFew = true :=
  ⟨rfl, by decide⟩

/-- Claim C4 (amended): `load_smdb` fails exactly when some line is bad —
i.e. does not strip-and-split into exactly five TAB-separated fields with a
64-character hex first field — and when it fails, `main` returns before any
source is traversed and before any file is written: the state is unchanged
and the outcome is the manifest error, with no report. -/
theorem c4_malformed_amended (lines : List Str) (d : Decode) (dest : Str) (fuel : Nat)
    (roots : List Src) (st : St) :
    (load_smdb lines = .error () ↔ ∃ l ∈ lines, goodLine l = false) ∧
    (load_smdb lines = .error () →
      mainSt true d lines dest fuel roots st = st ∧
      mainE true d lines dest fuel roots st = .error .malformedManifest) := by
  constructor
  · unfold load_smdb
    rw [loadAux_error_iff]
    constructor
    · intro ⟨l, hl, he⟩
      exact ⟨l, mem_sortLines.mp hl, (parseLine_error_iff l).mp he⟩
    · intro ⟨l, hl, hg⟩
      exact ⟨l, mem_sortLines.mpr hl, (parseLine_error_iff l).mpr hg⟩
  · intro herr
    constructor
    · unfold mainSt
      rw [if_neg (by simp), herr]
    · unfold mainE
      rw [if_neg (by simp), herr]

/-- Witness for C4 (amended) at a concrete malformed manifest. -/
theorem c4_malformed_amended_witness :
    (load_smdb [smdbLineFew] = .error () ↔ ∃ l ∈ [smdbLineFew], goodLine l = false) ∧
    (load_smdb [smdbLineFew] = .error () →
      mainSt true dChain [smdbLineFew] (("o").data) 1 [] ⟨[], []⟩ = ⟨[], []⟩ ∧
      mainE true dChain [smdbLineFew] (("o").data) 1 [] ⟨[], []⟩ =
        .error .malformedManifest) :=
  c4_malformed_amended [smdbLineFew] dChain (("o").data) 1 [] ⟨[], []⟩

/-- Claim C5: duplicate-hash tie-break.  The built index maps every hash to
the filename of the last line carrying that hash in the list obtained by
sorting the raw lines in reverse order by the tail substring from character
index 65 (Python `lines.sort(key=lambda l: l[65:], reverse=True)`); the
result is a function of the line list, hence deterministic. -/
theorem c5_duplicate_tiebreak (lines : List Str) (db : Db)
    (hload : load_smdb lines = .ok db) (hsh : Bytes) :
    lookupDb db hsh = lastHashMatch hsh (sortLines lines) := by
  unfold load_smdb at hload
  have h := loadAux_ok_lookup (sortLines lines) [] db hload hsh
  rw [h]
  cases hlm : lastHashMatch hsh (sortLines lines) <;> rfl

/-- Witness for C5: two records with the same hash and filenames `name1`,
`name2`; the sort puts `name2` first and `name1` last, so `name1` wins. -/
theorem c5_duplicate_tiebreak_witness :
    lookupDb demoDb (List.replicate 32 170) =
      lastHashMatch (List.replicate 32 170) (sortLines [smdbLineA, smdbLineB]) :=
  c5_duplicate_tiebreak [smdbLineA, smdbLineB] demoDb (by rfl) (List.replicate 32 170)

/-- Counterexample for C6 as stated: a directory containing the regular
file `.a` whose content `[1]` hashes to a key of the index.  `read_dir`
leaves the state untouched (the dot-name is invisible to `glob`), even
though the hash is in the index and visiting the file would have recorded
it in `FOUND`. -/
theorem c6_traversal_counterexample :
    read_dir (fun _ => none) demoDb1 (("o").data) 5
        [Entry.file ((".a").data) [1] true] ⟨[], []⟩ = ⟨[], []⟩ ∧
      lookupDb demoDb1 (hash_mem [1]) = some (("out").data) ∧
      (write_file demoDb1 (("o").data) [1] (hash_mem [1]) ⟨[], []⟩).found = [hash_mem [1]] := by
  refine ⟨by decide, by decide, by decide⟩

/-- Claim C6 (amended): `read_dir` visits — hashes and attempts to match —
exactly the regular files reachable through children whose names do not
begin with a dot (the `glob('*')` pattern skips dot-names), in traversal
order; entries that are neither directories nor regular files contribute
nothing, and dot-named files and directories are skipped entirely. -/
theorem c6_traversal_amended (d : Decode) (db : Db) (dest : Str) (fuel : Nat)
    (es : List Entry) (st : St) :
    read_dir d db dest fuel es st = (leavesDir d fuel es).foldl (wstep db dest) st ∧
    (∀ nm, leavesEntry d fuel (Entry.other nm) = []) ∧
    (∀ nm content ok, leavesEntry d fuel (Entry.file ('.' :: nm) content ok) = []) ∧
    (∀ nm children, leavesEntry d fuel (Entry.dir ('.' :: nm) children) = []) := by
  refine ⟨read_dir_eq d db dest fuel es st, fun nm => rfl, ?_, ?_⟩
  · intro nm content ok
    simp [leavesEntry, hiddenName]
  · intro nm children
    simp [leavesEntry, hiddenName]

/-- Counterexample for C7 as stated: manifest construction succeeds (one
well-formed record) but reading the single source root raises an `OSError`;
the exception is not caught anywhere in the source loop, so the run ends in
the error and never reaches the final report. -/
theorem c7_root_failure_counterexample :
    mainE true dChain [smdbLineA] (("o").data) 1 [Src.file [1] false] ⟨[], []⟩ =
      .error .ioError :=
  rfl

/-- Claim C7 (amended): when manifest construction succeeds on a non-empty
manifest and no read failure occurs on any root, the run reaches its end
and reports the matched count and the total manifest count; a read failure
on any root aborts the entire run without the final report (it does not
merely skip that root). -/
theorem c7_root_failure_amended (d : Decode) (lines : List Str) (dest : Str) (fuel : Nat)
    (roots : List Src) (st : St) (db : Db)
    (hload : load_smdb lines = .ok db) (hne : db ≠ []) (hok : srcsOk roots = true) :
    mainE true d lines dest fuel roots st =
      .ok ((runRoots d db dest fuel roots st).found.length, db.length,
        100 * ((runRoots d db dest fuel roots st).found.length : Rat) / (db.length : Rat)) :=
  mainE_report d lines dest fuel roots st db hload hne hok

/-- Witness for C7 (amended) at a concrete run. -/
theorem c7_root_failure_amended_witness :
    mainE true dChain [smdbLineA] (("o").data) 1 [Src.missing] ⟨[], []⟩ =
      .ok ((runRoots dChain demoDb (("o").data) 1 [Src.missing] ⟨[], []⟩).found.length,
        demoDb.length,
        100 * ((runRoots dChain demoDb (("o").data) 1 [Src.missing] ⟨[], []⟩).found.length : Rat) /
          (demoDb.length : Rat)) :=
  c7_root_failure_amended dChain [smdbLineA] (("o").data) 1 [Src.missing] ⟨[], []⟩ demoDb
    (by rfl) (by decide) (by rfl)

/-- Claim C8: idempotence of a full run.  Running `main` a second time with
the same manifest lines, sources, destination and decode adapter, starting
from the output tree the first run left behind (and a fresh empty `FOUND`),
reproduces exactly the first run's final state: no file is overwritten,
duplicated or modified by the second run. -/
theorem c8_idempotent_run (destOk : Bool) (d : Decode) (lines : List Str) (dest : Str)
    (fuel : Nat) (roots : List Src) (fs0 : List (Str × Bytes)) :
    mainSt destOk d lines dest fuel roots
        ⟨[], (mainSt destOk d lines dest fuel roots ⟨[], fs0⟩).fs⟩ =
      mainSt destOk d lines dest fuel roots ⟨[], fs0⟩ := by
  by_cases hd : destOk = false
  · simp [mainSt, hd]
  · cases hl : load_smdb lines with
    | error e => simp [mainSt, hd, hl]
    | ok db =>
      simp only [mainSt, hd, if_false, reduceIte, hl]
      exact runRoots_idem d db dest fuel roots fs0

/-- Claim C9: hash correctness and chunked/whole equivalence.  `hash_file`
— which feeds the content to the hash object in 4096-byte chunks — returns
exactly the SHA-256 digest of the content, and agrees bit-for-bit with
`hash_mem`, which hashes the whole buffer in one update. -/
theorem c9_hash_chunked_whole (content : Bytes) :
    hash_file content = sha256Bytes content ∧ hash_file content = hash_mem content := by
  have h := hash_file_eq_hash_mem content
  exact ⟨h, h⟩

/-- Claim C10: the final report divides by `len(DB)` with no guard.  With
an empty manifest (zero records, so index construction succeeds with an
empty index) and readable roots, the run ends in `ZeroDivisionError`
instead of reporting counts; with a non-empty index (and readable roots)
the report is produced. -/
theorem c10_empty_manifest_divzero (d : Decode) (dest : Str) (fuel : Nat)
    (roots : List Src) (st : St) (hok : srcsOk roots = true) :
    mainE true d [] dest fuel roots st = .error .zeroDivision ∧
    ∀ (lines : List Str) (db : Db), load_smdb lines = .ok db → db ≠ [] →
      ∃ rep, mainE true d lines dest fuel roots st = .ok rep := by
  constructor
  · unfold mainE
    rw [if_neg (by simp)]
    have hl : load_smdb ([] : List Str) = .ok ([] : Db) := rfl
    rw [hl]
    dsimp only
    rw [runRootsE_ok d [] dest fuel roots st hok]
    dsimp only
    unfold pyDiv
    rw [if_pos (by simp)]
  · intro lines db hload hne
    exact ⟨_, mainE_report d lines dest fuel roots st db hload hne hok⟩

/-- Witness for C10 at a concrete empty manifest. -/
theorem c10_empty_manifest_divzero_witness :
    mainE true dChain [] (("o").data) 1 [] ⟨[], []⟩ = .error .zeroDivision ∧
    ∀ (lines : List Str) (db : Db), load_smdb lines = .ok db → db ≠ [] →
      ∃ rep, mainE true dChain lines (("o").data) 1 [] ⟨[], []⟩ = .ok rep :=
  c10_empty_manifest_divzero dChain (("o").data) 1 [] ⟨[], []⟩ (by rfl)
